import Mathlib

/-!
Verification of the `networkx_astar_path` package
(`src/networkx_astar_path/astar.py`).

The module implements A* shortest-path search generalized so that the
edge-cost function may also inspect the edge traversed immediately before
the current one (history-sensitive weighting).

Shallow embedding conventions:
* nodes are an arbitrary type `V` with decidable equality;
* numeric costs are rationals `ℚ` (the concrete scenarios use only exact
  fractions such as `-11/2`);
* the graph collaborator (`nx.Graph`) is a structure holding the node list,
  the adjacency function (successors in iteration order), the edge-attribute
  lookup, and the multigraph flag.  Edge-attribute lookup is modelled as a
  total function: the spec leaves missing-attribute behaviour out of scope
  ("not defensively handled here");
* Python's `heapq` is modelled as a list together with `popMin`, which
  removes the entry with the least `(priority, counter)` key — with the
  counters unique this is exactly the element `heappop` removes;
* Python dictionaries are association lists with in-place overwriting
  insertion (`dinsert`) and first-match lookup (`dlookup`);
* the `while queue:` loop is run on fuel; `.error .outOfFuel` marks a run
  that was cut off, and a `KeyError`/unbounded parent walk surfaces as
  `.error .keyError`;
* raised Python exceptions become `Except` errors: `nx.NodeNotFound` is
  `.nodeNotFound`, `NotImplementedError` (raised by `_weight_function` on a
  multigraph) is `.unsupportedGraphKind`, `nx.NetworkXNoPath` is
  `.noPathFound`.
-/

deriving instance DecidableEq for Except

namespace AStarPath

/-- The graph collaborator, as used by `astar.py`: node membership,
adjacency iteration (`graph[u].items()`, successors in insertion order),
edge-attribute access (`graph.get_edge_data(u, v)[name]`) and the
multigraph classification (`graph.is_multigraph()`). -/
structure Graph (V : Type) where
  nodes : List V
  adj : V → List V
  edgeData : V → V → String → ℚ
  multigraph : Bool

/-- A cost function: `weight(graph, prev_edge, cur_edge)`.  `none` as the
previous edge signals the first edge of the path being evaluated. -/
def WeightFn (V : Type) : Type :=
  Graph V → Option (V × V) → (V × V) → ℚ

/-- The `weight` parameter of `astar_path`: either an edge-attribute name
(string) or a cost function (callable). -/
inductive WeightSpec (V : Type) where
  | attr (name : String)
  | fn (f : WeightFn V)

/-- The exceptions the two public operations can raise, plus the two
artifacts of the fuelled embedding (`outOfFuel`, `keyError`). -/
inductive AErr where
  | nodeNotFound
  | unsupportedGraphKind
  | noPathFound
  | keyError
  | outOfFuel
deriving DecidableEq

/-- `_weight_function(graph, weight)`: a callable is returned unchanged; an
attribute name is rejected on a multigraph (`NotImplementedError`) and
otherwise turned into the lookup
`lambda _G, prev_edge, cur_edge: _G.get_edge_data(*cur_edge)[weight_name]`. -/
def weight_function {V : Type} (g : Graph V) (w : WeightSpec V) :
    Except AErr (WeightFn V) :=
  match w with
  | .fn f => .ok f
  | .attr name =>
    if g.multigraph then .error .unsupportedGraphKind
    else .ok (fun G _prev_edge cur_edge => G.edgeData cur_edge.1 cur_edge.2 name)

/-- `_default_heuristic`: the constant-zero heuristic. -/
def default_heuristic {V : Type} (_u _v : V) : ℚ := 0

/-- One entry of the frontier heap:
`(priority, counter, node, dist, parent, explored_path)`. -/
structure Entry (V : Type) where
  priority : ℚ
  counter : ℕ
  node : V
  dist : ℚ
  parent : Option V
  epath : List V
deriving DecidableEq

/-- The mutable state of one `astar_path` call: the heap, the insertion
counter `c`, the `enqueued` table (node ↦ (best cost, cached heuristic)) and
the `explored` table (node ↦ parent, `none` marking the source). -/
structure State (V : Type) where
  queue : List (Entry V)
  cnt : ℕ
  enqueued : List (V × (ℚ × ℚ))
  explored : List (V × Option V)
deriving DecidableEq

/-- Association-list lookup (Python `d[k]` / `k in d`). -/
def dlookup {V A : Type} [DecidableEq V] : List (V × A) → V → Option A
  | [], _ => none
  | (k, a) :: t, v => if k = v then some a else dlookup t v

/-- Association-list insertion with Python-dict overwrite semantics
(`d[k] = a`): the first binding of `k` is replaced in place, otherwise the
binding is appended. -/
def dinsert {V A : Type} [DecidableEq V] : List (V × A) → V → A → List (V × A)
  | [], k, a => [(k, a)]
  | (k', b) :: t, k, a =>
    if k' = k then (k', a) :: t else (k', b) :: dinsert t k a

/-- Heap key comparison: lexicographic on `(priority, counter)`.  The node
itself is never compared, exactly as in the source, where the unique counter
guarantees the comparison never reaches the node component. -/
def keyLE {V : Type} (a b : Entry V) : Bool :=
  if a.priority < b.priority then true
  else if b.priority < a.priority then false
  else decide (a.counter ≤ b.counter)

/-- `heappop`: remove the entry with the least `(priority, counter)` key. -/
def popMin {V : Type} : List (Entry V) → Option (Entry V × List (Entry V))
  | [] => none
  | e :: t =>
    match popMin t with
    | none => some (e, [])
    | some (m, r) => if keyLE e m then some (e, t) else some (m, e :: r)

/-- `explored_path[-2]` paired with `curnode`: the previous edge on the
path carried by the popped frontier entry, or `none` when the path has a
single node (`IndexError` branch). -/
def prevEdge {V : Type} (epath : List V) (cur : V) : Option (V × V) :=
  match epath.reverse with
  | _ :: p :: _ => some (p, cur)
  | _ => none

/-- The reconstruction loop of the `curnode == target` branch:
`path = [curnode]; node = parent; while node is not None: path.append(node);
node = explored[node]; path.reverse()`.  The accumulator is kept in final
(already reversed) order; `none` stands for a `KeyError` or a parent walk
that does not terminate within the fuel (only possible on a cyclic table). -/
def reconstruct {V : Type} [DecidableEq V] (expl : List (V × Option V)) :
    ℕ → Option V → List V → Option (List V)
  | _, none, acc => some acc
  | 0, some _, _ => none
  | fuel + 1, some p, acc =>
    match dlookup expl p with
    | none => none
    | some op => reconstruct expl fuel op (p :: acc)

/-- The inner `for neighbor, w in graph[curnode].items():` loop of one
iteration: relax every neighbor, updating the heap, the `enqueued` table and
the counter. -/
def expandLoop {V : Type} [DecidableEq V] (g : Graph V) (w : WeightFn V)
    (hfn : V → V → ℚ) (target curnode : V) (dist : ℚ) (epath : List V)
    (prev : Option (V × V)) :
    List V → List (Entry V) → List (V × (ℚ × ℚ)) → ℕ →
    List (Entry V) × List (V × (ℚ × ℚ)) × ℕ
  | [], queue, enq, cnt => (queue, enq, cnt)
  | nb :: nbs, queue, enq, cnt =>
    let ncost := dist + w g prev (curnode, nb)
    match dlookup enq nb with
    | some qh =>
      if qh.1 ≤ ncost then
        expandLoop g w hfn target curnode dist epath prev nbs queue enq cnt
      else
        expandLoop g w hfn target curnode dist epath prev nbs
          (queue ++ [⟨ncost + qh.2, cnt, nb, ncost, some curnode, epath ++ [nb]⟩])
          (dinsert enq nb (ncost, qh.2)) (cnt + 1)
    | none =>
      let hv := hfn nb target
      expandLoop g w hfn target curnode dist epath prev nbs
        (queue ++ [⟨ncost + hv, cnt, nb, ncost, some curnode, epath ++ [nb]⟩])
        (dinsert enq nb (ncost, hv)) (cnt + 1)

/-- Finalize the popped entry (`explored[curnode] = parent`) and expand its
neighbors. -/
def finalizeExpand {V : Type} [DecidableEq V] (g : Graph V) (w : WeightFn V)
    (hfn : V → V → ℚ) (target : V) (s : State V) (e : Entry V)
    (rest : List (Entry V)) : State V :=
  let expl := dinsert s.explored e.node e.parent
  let r := expandLoop g w hfn target e.node e.dist e.epath
    (prevEdge e.epath e.node) (g.adj e.node) rest s.enqueued s.cnt
  ⟨r.1, r.2.2, r.2.1, expl⟩

/-- The outcome of one iteration of the `while queue:` loop. -/
inductive StepOut (V : Type) where
  | found (path : List V)
  | noPath
  | keyError
  | cont (s : State V)
deriving DecidableEq

/-- One iteration of the `while queue:` loop of `astar_path`. -/
def step {V : Type} [DecidableEq V] (g : Graph V) (w : WeightFn V)
    (hfn : V → V → ℚ) (target : V) (s : State V) : StepOut V :=
  match popMin s.queue with
  | none => .noPath
  | some (e, rest) =>
    if e.node = target then
      match reconstruct s.explored (s.explored.length + 1) e.parent [e.node] with
      | some p => .found p
      | none => .keyError
    else
      match dlookup s.explored e.node with
      | some none => .cont { s with queue := rest }
      | some (some _) =>
        match dlookup s.enqueued e.node with
        | none => .keyError
        | some qh =>
          if qh.1 < e.dist then .cont { s with queue := rest }
          else .cont (finalizeExpand g w hfn target s e rest)
      | none => .cont (finalizeExpand g w hfn target s e rest)

/-- The fuelled `while queue:` loop. -/
def astarLoop {V : Type} [DecidableEq V] (g : Graph V) (w : WeightFn V)
    (hfn : V → V → ℚ) (target : V) : ℕ → State V → Except AErr (List V)
  | 0, _ => .error .outOfFuel
  | fuel + 1, s =>
    match step g w hfn target s with
    | .found p => .ok p
    | .noPath => .error .noPathFound
    | .keyError => .error .keyError
    | .cont s' => astarLoop g w hfn target fuel s'

/-- The initial search state:
`queue = [(0, next(c), source, 0, None, [source])]`, empty tables. -/
def initState {V : Type} (source : V) : State V :=
  ⟨[⟨0, 0, source, 0, none, [source]⟩], 1, [], []⟩

/-- `astar_path(graph, source, target, heuristic, weight)`. -/
def astar_path {V : Type} [DecidableEq V] (g : Graph V) (source target : V)
    (heuristic : Option (V → V → ℚ)) (weight : WeightSpec V) (fuel : ℕ) :
    Except AErr (List V) :=
  if source ∈ g.nodes ∧ target ∈ g.nodes then
    let hfn := heuristic.getD default_heuristic
    match weight_function g weight with
    | .error e => .error e
    | .ok w => astarLoop g w hfn target fuel (initState source)
  else .error .nodeNotFound

/-- `astar_path_length(graph, source, target, heuristic, weight)`: resolve
the weight, run `astar_path` with the resolved callable, then re-walk the
returned node sequence as `zip(path_edges[:-1], path_edges[1:])` where
`path_edges = [None] + zip(path[:-1], path[1:])`, and sum the costs. -/
def astar_path_length {V : Type} [DecidableEq V] (g : Graph V)
    (source target : V) (heuristic : Option (V → V → ℚ))
    (weight : WeightSpec V) (fuel : ℕ) : Except AErr ℚ :=
  if source ∈ g.nodes ∧ target ∈ g.nodes then
    match weight_function g weight with
    | .error e => .error e
    | .ok w =>
      match astar_path g source target heuristic (.fn w) fuel with
      | .error e => .error e
      | .ok path =>
        let edges := path.dropLast.zip path.tail
        let prevs : List (Option (V × V)) := (none :: edges.map some).dropLast
        .ok (((prevs.zip edges).map (fun pc => w g pc.1 pc.2)).sum)
  else .error .nodeNotFound

/-- Edge relation of the collaborator graph: `v` is a successor of `u`. -/
def hasEdge {V : Type} (g : Graph V) (u v : V) : Prop := v ∈ g.adj u

/-- Reachability by directed edges. -/
def ReachG {V : Type} (g : Graph V) (s v : V) : Prop :=
  Relation.ReflTransGen (hasEdge g) s v

/-- Apply one loop iteration to a not-yet-terminated run. -/
def advance {V : Type} [DecidableEq V] (g : Graph V) (w : WeightFn V)
    (hfn : V → V → ℚ) (target : V) : StepOut V → StepOut V
  | .cont s => step g w hfn target s
  | r => r

/-- The run of one `astar_path` call after `k` loop iterations, starting
from the call's initial state. -/
def runK {V : Type} [DecidableEq V] (g : Graph V) (w : WeightFn V)
    (hfn : V → V → ℚ) (target : V) (s0 : State V) : ℕ → StepOut V
  | 0 => .cont s0
  | k + 1 => advance g w hfn target (runK g w hfn target s0 k)

/-- The `explored` table of an ongoing run, at one node. -/
def exploredOf {V : Type} [DecidableEq V] (r : StepOut V) (v : V) :
    Option (Option V) :=
  match r with
  | .cont s => match dlookup s.explored v with
    | some op => some op
    | none => none
  | _ => none

/-- The test suite's example graph (`S, A1, T, A2, B2, C2` are
`0, 1, 2, 3, 4, 5`): edges `S→A1` (weight −2), `A1→T` (weight 7), and
`S→A2, A2→B2, B2→C2, C2→T` (weight 1 each), with adjacency lists in the
insertion order of the test fixture. -/
def gEx : Graph ℕ where
  nodes := [0, 1, 2, 3, 4, 5]
  adj := fun v =>
    if v = 0 then [1, 3] else if v = 1 then [2] else if v = 3 then [4]
    else if v = 4 then [5] else if v = 5 then [2] else []
  edgeData := fun u v _name =>
    if u = 0 ∧ v = 1 then -2 else if u = 1 ∧ v = 2 then 7 else 1
  multigraph := false

/-- The test suite's history-dependent cost function: the attribute weight
of the current edge divided by the attribute weight of the previous edge,
or just the attribute weight when there is no previous edge. -/
def dependent_weight : WeightFn ℕ := fun g prev cur =>
  match prev with
  | none => g.edgeData cur.1 cur.2 "weight"
  | some pe => g.edgeData cur.1 cur.2 "weight" / g.edgeData pe.1 pe.2 "weight"

/-- A graph on which the search never terminates: `0→1` with weight 1, a
self-loop `1→1` with weight −1, and an isolated node `2` (so `2` is present
but unreachable from `0`). -/
def gLoop : Graph ℕ where
  nodes := [0, 1, 2]
  adj := fun v => if v = 0 then [1] else if v = 1 then [1] else []
  edgeData := fun u v _ => if u = 0 ∧ v = 1 then 1 else -1
  multigraph := false

/-- The cost function `weight_function` produces for the attribute name
`"weight"` on a non-multigraph. -/
def wAttr {V : Type} : WeightFn V :=
  fun G _prev_edge cur_edge => G.edgeData cur_edge.1 cur_edge.2 "weight"

/-- The consecutive edges of a node sequence. -/
def pathEdges {V : Type} (p : List V) : List (V × V) := p.dropLast.zip p.tail

/-- The spec's description of the length computation: the sum of the
resolved cost function applied to the edges in path order, each receiving
the preceding edge (or `none` for the first edge) as previous-edge
context. -/
def costAlong {V : Type} (g : Graph V) (w : WeightFn V) :
    Option (V × V) → List (V × V) → ℚ
  | _, [] => 0
  | prev, e :: es => w g prev e + costAlong g w (some e) es

/-- A path graph `0 → 1` with an isolated node `2`: the target `2` is
present but unreachable, and the search terminates. -/
def gline : Graph ℕ where
  nodes := [0, 1, 2]
  adj := fun v => if v = 0 then [1] else []
  edgeData := fun _ _ _ => 1
  multigraph := false

/-- A two-node multigraph, for the weight-resolution rejection. -/
def gMulti : Graph ℕ where
  nodes := [0, 1]
  adj := fun v => if v = 0 then [1] else []
  edgeData := fun _ _ _ => 1
  multigraph := true

/-- The periodic family of states the `gLoop` search cycles through: for
every `j`, the state reached after `3 + j` loop iterations.  The single
frontier entry re-enters node `1` with accumulated cost `-(1+j)`. -/
def loopState (j : ℕ) : State ℕ :=
  { queue := [⟨-(1 + (j : ℚ)), 3 + j, 1, -(1 + (j : ℚ)), some 1,
      0 :: List.replicate (3 + j) 1⟩],
    cnt := 4 + j,
    enqueued := [(1, (-(1 + (j : ℚ)), 0))],
    explored := [(0, none), (1, some 1)] }

/-- The `gLoop` search state after one loop iteration. -/
def gLoopS1 : State ℕ :=
  { queue := [⟨1, 1, 1, 1, some 0, [0, 1]⟩],
    cnt := 2,
    enqueued := [(1, (1, 0))],
    explored := [(0, none)] }

/-- The `gLoop` search state after two loop iterations. -/
def gLoopS2 : State ℕ :=
  { queue := [⟨0, 2, 1, 0, some 1, [0, 1, 1]⟩],
    cnt := 3,
    enqueued := [(1, (0, 0))],
    explored := [(0, none), (1, some 0)] }

/-- `astar_path` never raises `NoPathFound` on these arguments, however
much fuel the loop is given. -/
def noPathNeverRaised {V : Type} [DecidableEq V] (g : Graph V) (s t : V)
    (h : Option (V → V → ℚ)) (w : WeightSpec V) : Prop :=
  ∀ fuel, astar_path g s t h w fuel ≠ .error .noPathFound

/-- The frontier counters of an ongoing run are pairwise distinct and all
below the next value of the insertion counter. -/
def countersOK {V : Type} : StepOut V → Prop
  | .cont s =>
    (s.queue.map Entry.counter).Pairwise (· ≠ ·) ∧
      ∀ e ∈ s.queue, e.counter < s.cnt
  | _ => True

/-- An edge-only cost function, as consumed by classic A*. -/
def CWeightFn (V : Type) : Type := Graph V → (V × V) → ℚ

/-- A frontier entry of classic A*: no explored path is carried. -/
structure CEntry (V : Type) where
  priority : ℚ
  counter : ℕ
  node : V
  dist : ℚ
  parent : Option V
deriving DecidableEq

/-- The search state of classic A*. -/
structure CState (V : Type) where
  queue : List (CEntry V)
  cnt : ℕ
  enqueued : List (V × (ℚ × ℚ))
  explored : List (V × Option V)
deriving DecidableEq

/-- Heap key comparison for classic entries. -/
def keyLEC {V : Type} (a b : CEntry V) : Bool :=
  if a.priority < b.priority then true
  else if b.priority < a.priority then false
  else decide (a.counter ≤ b.counter)

/-- `heappop` for classic entries. -/
def popMinC {V : Type} : List (CEntry V) → Option (CEntry V × List (CEntry V))
  | [] => none
  | e :: t =>
    match popMinC t with
    | none => some (e, [])
    | some (m, r) => if keyLEC e m then some (e, t) else some (m, e :: r)

/-- The neighbor-relaxation loop of classic A*: identical to `expandLoop`
except that the cost function sees only the current edge and entries carry
no path. -/
def cexpandLoop {V : Type} [DecidableEq V] (g : Graph V) (w : CWeightFn V)
    (hfn : V → V → ℚ) (target curnode : V) (dist : ℚ) :
    List V → List (CEntry V) → List (V × (ℚ × ℚ)) → ℕ →
    List (CEntry V) × List (V × (ℚ × ℚ)) × ℕ
  | [], queue, enq, cnt => (queue, enq, cnt)
  | nb :: nbs, queue, enq, cnt =>
    let ncost := dist + w g (curnode, nb)
    match dlookup enq nb with
    | some qh =>
      if qh.1 ≤ ncost then cexpandLoop g w hfn target curnode dist nbs queue enq cnt
      else
        cexpandLoop g w hfn target curnode dist nbs
          (queue ++ [⟨ncost + qh.2, cnt, nb, ncost, some curnode⟩])
          (dinsert enq nb (ncost, qh.2)) (cnt + 1)
    | none =>
      let hv := hfn nb target
      cexpandLoop g w hfn target curnode dist nbs
        (queue ++ [⟨ncost + hv, cnt, nb, ncost, some curnode⟩])
        (dinsert enq nb (ncost, hv)) (cnt + 1)

/-- Finalization plus expansion for classic A*. -/
def cfinalizeExpand {V : Type} [DecidableEq V] (g : Graph V) (w : CWeightFn V)
    (hfn : V → V → ℚ) (target : V) (s : CState V) (e : CEntry V)
    (rest : List (CEntry V)) : CState V :=
  let expl := dinsert s.explored e.node e.parent
  let r := cexpandLoop g w hfn target e.node e.dist (g.adj e.node)
    rest s.enqueued s.cnt
  ⟨r.1, r.2.2, r.2.1, expl⟩

/-- The outcome of one classic loop iteration. -/
inductive CStepOut (V : Type) where
  | found (path : List V)
  | noPath
  | keyError
  | cont (s : CState V)
deriving DecidableEq

/-- One loop iteration of classic A*. -/
def cstep {V : Type} [DecidableEq V] (g : Graph V) (w : CWeightFn V)
    (hfn : V → V → ℚ) (target : V) (s : CState V) : CStepOut V :=
  match popMinC s.queue with
  | none => .noPath
  | some (e, rest) =>
    if e.node = target then
      match reconstruct s.explored (s.explored.length + 1) e.parent [e.node] with
      | some p => .found p
      | none => .keyError
    else
      match dlookup s.explored e.node with
      | some none => .cont { s with queue := rest }
      | some (some _) =>
        match dlookup s.enqueued e.node with
        | none => .keyError
        | some qh =>
          if qh.1 < e.dist then .cont { s with queue := rest }
          else .cont (cfinalizeExpand g w hfn target s e rest)
      | none => .cont (cfinalizeExpand g w hfn target s e rest)

/-- The fuelled loop of classic A*. -/
def classicLoop {V : Type} [DecidableEq V] (g : Graph V) (w : CWeightFn V)
    (hfn : V → V → ℚ) (target : V) : ℕ → CState V → Except AErr (List V)
  | 0, _ => .error .outOfFuel
  | fuel + 1, s =>
    match cstep g w hfn target s with
    | .found p => .ok p
    | .noPath => .error .noPathFound
    | .keyError => .error .keyError
    | .cont s' => classicLoop g w hfn target fuel s'

/-- Modelled from the spec: "a standard edge-only shortest-path algorithm
... classic Dijkstra/A* behavior" — the networkx A* this module was forked
from, whose cost function sees one edge and whose frontier entries carry no
path.  Used only as the reference point of the refinement claim. -/
def classic_astar_path {V : Type} [DecidableEq V] (g : Graph V)
    (source target : V) (heuristic : Option (V → V → ℚ)) (w : CWeightFn V)
    (fuel : ℕ) : Except AErr (List V) :=
  if source ∈ g.nodes ∧ target ∈ g.nodes then
    let hfn := heuristic.getD default_heuristic
    classicLoop g w hfn target fuel ⟨[⟨0, 0, source, 0, none⟩], 1, [], []⟩
  else .error .nodeNotFound

/-- Forget the explored path carried by a frontier entry. -/
def eraseE {V : Type} (e : Entry V) : CEntry V :=
  ⟨e.priority, e.counter, e.node, e.dist, e.parent⟩

/-- Forget the explored paths carried by a search state. -/
def eraseS {V : Type} (s : State V) : CState V :=
  ⟨s.queue.map eraseE, s.cnt, s.enqueued, s.explored⟩

/-- Forget the explored paths carried by a step outcome. -/
def eraseOut {V : Type} : StepOut V → CStepOut V
  | .found p => .found p
  | .noPath => .noPath
  | .keyError => .keyError
  | .cont s => .cont (eraseS s)

/-- The per-call invariant of the search state, relative to the graph and
the source:
* a frontier entry with no parent is for the source, and one with parent
  `p` is for a successor of `p`; its node is reachable from the source, and
  (except for the source seed) recorded in `enqueued`;
* the same facts hold for the bindings of the `explored` table;
* frontier counters are pairwise distinct and below the insertion counter. -/
structure Inv {V : Type} [DecidableEq V] (g : Graph V) (source : V)
    (s : State V) : Prop where
  qpar : ∀ e ∈ s.queue,
    (e.parent = none → e.node = source) ∧
    ∀ p, e.parent = some p → e.node ∈ g.adj p
  xpar : ∀ v op, dlookup s.explored v = some op →
    (op = none → v = source) ∧ ∀ p, op = some p → v ∈ g.adj p
  qenq : ∀ e ∈ s.queue, e.parent ≠ none →
    (dlookup s.enqueued e.node).isSome = true
  xenq : ∀ v p, dlookup s.explored v = some (some p) →
    (dlookup s.enqueued v).isSome = true
  ctrlt : ∀ e ∈ s.queue, e.counter < s.cnt
  ctrnd : (s.queue.map Entry.counter).Pairwise (· ≠ ·)
  qreach : ∀ e ∈ s.queue, ReachG g source e.node
  xreach : ∀ v op, dlookup s.explored v = some op → ReachG g source v

/-- The `gEx` search state after one loop iteration (attribute weight). -/
def gExS1 : State ℕ :=
  { queue := [⟨-2, 1, 1, -2, some 0, [0, 1]⟩, ⟨1, 2, 3, 1, some 0, [0, 3]⟩],
    cnt := 3,
    enqueued := [(1, (-2, 0)), (3, (1, 0))],
    explored := [(0, none)] }

/-! ## Basic classification lemmas -/

theorem weight_function_error {V : Type} {g : Graph V} {w : WeightSpec V}
    {e : AErr} (h : weight_function g w = .error e) :
    e = .unsupportedGraphKind := by
  cases w with
  | fn f => simp [weight_function] at h
  | attr name =>
    by_cases hm : g.multigraph <;> simp [weight_function, hm] at h
    exact h.symm

theorem astarLoop_error {V : Type} [DecidableEq V] {g : Graph V}
    {w : WeightFn V} {hfn : V → V → ℚ} {target : V} :
    ∀ {fuel : ℕ} {s : State V} {e : AErr},
      astarLoop g w hfn target fuel s = .error e →
      e = .noPathFound ∨ e = .keyError ∨ e = .outOfFuel := by
  intro fuel
  induction fuel with
  | zero =>
    intro s e h
    injection h with h'
    exact Or.inr (Or.inr h'.symm)
  | succ n ih =>
    intro s e h
    rw [astarLoop] at h
    rcases hs : step g w hfn target s with p | _ | _ | s' <;> rw [hs] at h
    · exact Except.noConfusion h
    · injection h with h'
      exact Or.inl h'.symm
    · injection h with h'
      exact Or.inr (Or.inl h'.symm)
    · exact ih h

theorem astar_path_eq_loop {V : Type} [DecidableEq V] {g : Graph V}
    {source target : V} {h : Option (V → V → ℚ)} {w : WeightSpec V}
    {wres : WeightFn V} {fuel : ℕ}
    (hm : source ∈ g.nodes ∧ target ∈ g.nodes)
    (hw : weight_function g w = .ok wres) :
    astar_path g source target h w fuel =
      astarLoop g wres (h.getD default_heuristic) target fuel
        (initState source) := by
  rw [astar_path, if_pos hm, hw]

theorem gEx_attr_run :
    astar_path gEx 0 2 none (.attr "weight") 30 = .ok [0, 3, 4, 5, 2] := by
  norm_num [astar_path, astarLoop, step, initState, popMin,
    keyLE, expandLoop, finalizeExpand, prevEdge, reconstruct, dlookup, dinsert,
    weight_function, gEx, default_heuristic]

theorem gEx_dep_run :
    astar_path gEx 0 2 none (.fn dependent_weight) 30 = .ok [0, 1, 2] := by
  norm_num [astar_path, astarLoop, step, initState, popMin,
    keyLE, expandLoop, finalizeExpand, prevEdge, reconstruct, dlookup, dinsert,
    weight_function, gEx, dependent_weight, default_heuristic]

theorem gEx_dep_len :
    astar_path_length gEx 0 2 none (.fn dependent_weight) 30 =
      .ok (-11 / 2) := by
  norm_num [astar_path, astar_path_length, astarLoop, step, initState, popMin,
    keyLE, expandLoop, finalizeExpand, prevEdge, reconstruct, dlookup, dinsert,
    weight_function, gEx, dependent_weight, default_heuristic]

/-- C2: on the concrete test graph (S→A1 weight −2, A1→T weight 7,
S→A2→B2→C2→T weight 1 each, with S A1 T A2 B2 C2 numbered 0 1 2 3 4 5):
with the plain attribute weight `"weight"` the search returns
`[S, A2, B2, C2, T]`; with the history-dependent cost function it returns
`[S, A1, T]`, and `astar_path_length` returns `−5.5`. -/
theorem claim_C2 :
    astar_path gEx 0 2 none (.attr "weight") 30 = .ok [0, 3, 4, 5, 2] ∧
    astar_path gEx 0 2 none (.fn dependent_weight) 30 = .ok [0, 1, 2] ∧
    astar_path_length gEx 0 2 none (.fn dependent_weight) 30 =
      .ok (-11 / 2) :=
  ⟨gEx_attr_run, gEx_dep_run, gEx_dep_len⟩

theorem astar_path_ne_nodeNotFound {V : Type} [DecidableEq V] {g : Graph V}
    {s t : V} {h : Option (V → V → ℚ)} {w : WeightSpec V} {fuel : ℕ}
    (hm : s ∈ g.nodes ∧ t ∈ g.nodes) :
    astar_path g s t h w fuel ≠ .error .nodeNotFound := by
  rw [astar_path, if_pos hm]
  rcases hw : weight_function g w with e | wres
  · rw [weight_function_error hw]
    intro hc
    injection hc with hc'
    exact AErr.noConfusion hc'
  · intro hc
    rcases astarLoop_error hc with h1 | h1 | h1 <;> exact AErr.noConfusion h1

theorem astar_path_length_ne_nodeNotFound {V : Type} [DecidableEq V]
    {g : Graph V} {s t : V} {h : Option (V → V → ℚ)} {w : WeightSpec V}
    {fuel : ℕ} (hm : s ∈ g.nodes ∧ t ∈ g.nodes) :
    astar_path_length g s t h w fuel ≠ .error .nodeNotFound := by
  intro hc
  rw [astar_path_length, if_pos hm] at hc
  rcases hw : weight_function g w with e | wres <;> rw [hw] at hc <;>
    dsimp only at hc
  · simp only [Except.error.injEq] at hc
    exact AErr.noConfusion (hc.symm.trans (weight_function_error hw))
  · rcases hi : astar_path g s t h (.fn wres) fuel with e2 | p <;>
      rw [hi] at hc <;> dsimp only at hc
    · simp only [Except.error.injEq] at hc
      exact astar_path_ne_nodeNotFound hm (hc ▸ hi)
    · exact Except.noConfusion hc

/-- C7: `astar_path` and `astar_path_length` fail with `NodeNotFound`
exactly when source or target (or both) is absent from the graph; the check
is eager — it fires for every fuel budget (even zero, before any search
step) and for every weight specification (even an attribute name on a
multigraph). -/
theorem claim_C7 {V : Type} [DecidableEq V] (g : Graph V) (s t : V)
    (h : Option (V → V → ℚ)) (w : WeightSpec V) (fuel : ℕ) :
    (astar_path g s t h w fuel = .error .nodeNotFound ↔
      ¬(s ∈ g.nodes ∧ t ∈ g.nodes)) ∧
    (astar_path_length g s t h w fuel = .error .nodeNotFound ↔
      ¬(s ∈ g.nodes ∧ t ∈ g.nodes)) := by
  by_cases hm : s ∈ g.nodes ∧ t ∈ g.nodes
  · exact ⟨⟨fun hc => absurd hc (astar_path_ne_nodeNotFound hm),
        fun hc => absurd hm hc⟩,
      ⟨fun hc => absurd hc (astar_path_length_ne_nodeNotFound hm),
        fun hc => absurd hm hc⟩⟩
  · refine ⟨⟨fun _ => hm, fun _ => ?_⟩, ⟨fun _ => hm, fun _ => ?_⟩⟩
    · rw [astar_path, if_neg hm]
    · rw [astar_path_length, if_neg hm]

/-- C8: an attribute-name weight specification on a multigraph makes both
entry points fail with `UnsupportedGraphKind`, already during weight
resolution (for every fuel budget, even zero); a callable weight
specification is never rejected and is returned unchanged by the
resolver. -/
theorem claim_C8 {V : Type} [DecidableEq V] (g : Graph V) (s t : V)
    (h : Option (V → V → ℚ)) (name : String) (f : WeightFn V) (fuel : ℕ) :
    (weight_function g (.attr name) = .error .unsupportedGraphKind ↔
      g.multigraph = true) ∧
    weight_function g (.fn f) = .ok f ∧
    (g.multigraph = true → s ∈ g.nodes → t ∈ g.nodes →
      astar_path g s t h (.attr name) fuel = .error .unsupportedGraphKind ∧
      astar_path_length g s t h (.attr name) fuel =
        .error .unsupportedGraphKind) := by
  refine ⟨⟨fun hc => ?_, fun hmg => by simp [weight_function, hmg]⟩, rfl,
    fun hmg hs ht => ?_⟩
  · by_cases hmg : g.multigraph = true
    · exact hmg
    · simp [weight_function, hmg] at hc
  · have hw : weight_function g (.attr name) =
        (.error .unsupportedGraphKind : Except AErr (WeightFn V)) := by
      simp [weight_function, hmg]
    constructor
    · rw [astar_path, if_pos ⟨hs, ht⟩, hw]
    · rw [astar_path_length, if_pos ⟨hs, ht⟩, hw]

/-- C8 witness: on the concrete multigraph, both entry points reject the
attribute-name specification with zero fuel. -/
theorem claim_C8_witness :
    astar_path gMulti 0 1 none (.attr "weight") 0 =
      .error .unsupportedGraphKind ∧
    astar_path_length gMulti 0 1 none (.attr "weight") 0 =
      .error .unsupportedGraphKind :=
  (claim_C8 gMulti 0 1 none "weight" wAttr 0).2.2 rfl
    (by norm_num [gMulti]) (by norm_num [gMulti])

/-- C10: when source and target coincide (and are present), `astar_path`
returns the single-node path for every heuristic and every callable cost
function (with one unit of fuel — the first pop already finds the target,
so neither the heuristic nor the cost function is ever invoked); an
attribute-name specification is still resolved first, so it still fails on
a multigraph. -/
theorem claim_C10 {V : Type} [DecidableEq V] (g : Graph V) (s : V)
    (h : Option (V → V → ℚ)) (f : WeightFn V) (name : String) (fuel : ℕ)
    (hs : s ∈ g.nodes) :
    astar_path g s s h (.fn f) (fuel + 1) = .ok [s] ∧
    (g.multigraph = false →
      astar_path g s s h (.attr name) (fuel + 1) = .ok [s]) ∧
    (g.multigraph = true →
      astar_path g s s h (.attr name) (fuel + 1) =
        .error .unsupportedGraphKind) := by
  refine ⟨?_, fun hmg => ?_, fun hmg => ?_⟩
  · rw [astar_path_eq_loop ⟨hs, hs⟩
      (show weight_function g (.fn f) = .ok f from rfl)]
    simp [astarLoop, step, initState, popMin, reconstruct]
  · have hw : weight_function g (.attr name) =
        .ok (fun G _prev_edge cur_edge =>
          G.edgeData cur_edge.1 cur_edge.2 name) := by
      simp [weight_function, hmg]
    rw [astar_path_eq_loop ⟨hs, hs⟩ hw]
    simp [astarLoop, step, initState, popMin, reconstruct]
  · have hw : weight_function g (.attr name) =
        (.error .unsupportedGraphKind : Except AErr (WeightFn V)) := by
      simp [weight_function, hmg]
    rw [astar_path, if_pos ⟨hs, hs⟩, hw]

/-- C10 witness: on the concrete test graph, the source-equals-target call
returns the single-node path under both weight modes. -/
theorem claim_C10_witness :
    astar_path gEx 0 0 none (.fn dependent_weight) 5 = .ok [0] ∧
    astar_path gEx 0 0 none (.attr "weight") 5 = .ok [0] :=
  ⟨(claim_C10 gEx 0 none dependent_weight "weight" 4
      (by norm_num [gEx])).1,
    (claim_C10 gEx 0 none dependent_weight "weight" 4
      (by norm_num [gEx])).2.1 rfl⟩

/-! ## Claim C3: the length recomputation -/

theorem sumAlong_eq_costAlong {V : Type} [DecidableEq V] (g : Graph V)
    (w : WeightFn V) :
    ∀ (es : List (V × V)) (prev : Option (V × V)),
      (((prev :: es.map some).dropLast.zip es).map
          (fun pc => w g pc.1 pc.2)).sum = costAlong g w prev es := by
  intro es
  induction es with
  | nil => intro prev; simp [costAlong]
  | cons e rest ih =>
    intro prev
    rcases rest with _ | ⟨e2, rest2⟩
    · simp [costAlong]
    · rw [List.map_cons, List.dropLast_cons₂, List.zip_cons_cons,
        List.map_cons, List.sum_cons, ih (some e)]
      conv_rhs => rw [costAlong]

/-- C3: whenever `astar_path` succeeds, `astar_path_length` (same
arguments) returns exactly the sum of the resolved cost function over the
consecutive edges of the returned path, taken in path order, each
application receiving the preceding edge (`none` for the first edge) as its
previous-edge argument. -/
theorem claim_C3 {V : Type} [DecidableEq V] (g : Graph V) (s t : V)
    (h : Option (V → V → ℚ)) (w : WeightSpec V) (fuel : ℕ) (p : List V)
    (wres : WeightFn V) (hw : weight_function g w = .ok wres)
    (hok : astar_path g s t h w fuel = .ok p) :
    astar_path_length g s t h w fuel =
      .ok (costAlong g wres none (pathEdges p)) := by
  by_cases hm : s ∈ g.nodes ∧ t ∈ g.nodes
  · have hloop : astar_path g s t h (.fn wres) fuel = .ok p := by
      rw [astar_path_eq_loop hm (show weight_function g (.fn wres) = .ok wres
        from rfl)]
      rw [astar_path_eq_loop hm hw] at hok
      exact hok
    rw [astar_path_length, if_pos hm, hw]
    dsimp only
    rw [hloop]
    dsimp only
    rw [sumAlong_eq_costAlong g wres (p.dropLast.zip p.tail) none]
    rfl
  · rw [astar_path, if_neg hm] at hok
    exact Except.noConfusion hok

/-- C3 witness: the concrete history-dependent run of the test graph. -/
theorem claim_C3_witness :
    astar_path_length gEx 0 2 none (.fn dependent_weight) 30 =
      .ok (costAlong gEx dependent_weight none (pathEdges [0, 1, 2])) :=
  claim_C3 gEx 0 2 none (.fn dependent_weight) 30 [0, 1, 2]
    dependent_weight rfl gEx_dep_run

/-! ## Structural lemmas about the dictionary and heap models -/

theorem dlookup_dinsert {V A : Type} [DecidableEq V] (l : List (V × A))
    (k v : V) (a : A) :
    dlookup (dinsert l k a) v = if k = v then some a else dlookup l v := by
  induction l with
  | nil => simp [dinsert, dlookup]
  | cons kb t ih =>
    obtain ⟨k', b⟩ := kb
    by_cases hk : k' = k
    · subst hk
      by_cases hv : k' = v <;> simp [dinsert, dlookup, hv]
    · by_cases hv : k' = v
      · subst hv
        have : ¬ k = k' := fun hc => hk hc.symm
        simp [dinsert, hk, dlookup, this]
      · simp [dinsert, hk, dlookup, hv, ih]

theorem dlookup_dinsert_isSome {V A : Type} [DecidableEq V]
    {l : List (V × A)} {v : V} (k : V) (a : A)
    (h : (dlookup l v).isSome = true) :
    (dlookup (dinsert l k a) v).isSome = true := by
  rw [dlookup_dinsert]
  by_cases hk : k = v <;> simp [hk, h]

theorem dlookup_dinsert_self {V A : Type} [DecidableEq V]
    (l : List (V × A)) (k : V) (a : A) :
    dlookup (dinsert l k a) k = some a := by
  rw [dlookup_dinsert]
  simp

theorem popMin_eq_none_iff {V : Type} (l : List (Entry V)) :
    popMin l = none ↔ l = [] := by
  cases l with
  | nil => simp [popMin]
  | cons e t =>
    constructor
    · intro hc
      rw [popMin] at hc
      rcases h : popMin t with _ | ⟨m, r⟩ <;> rw [h] at hc
      · exact Option.noConfusion hc
      · by_cases hk : keyLE e m <;> simp [hk] at hc
    · intro hc
      exact List.noConfusion hc

theorem popMin_mem {V : Type} :
    ∀ {l : List (Entry V)} {e : Entry V} {rest : List (Entry V)},
      popMin l = some (e, rest) → e ∈ l := by
  intro l
  induction l with
  | nil => intro e r h; exact Option.noConfusion h
  | cons x t ih =>
    intro e r h
    rw [popMin] at h
    rcases hp : popMin t with _ | ⟨m, r'⟩ <;> rw [hp] at h
    · simp only [Option.some.injEq, Prod.mk.injEq] at h
      obtain ⟨rfl, rfl⟩ := h
      exact List.mem_cons_self x t
    · by_cases hk : keyLE x m <;> simp only [hk, if_true, if_false,
        Option.some.injEq, Prod.mk.injEq, Bool.false_eq_true] at h
      · obtain ⟨rfl, rfl⟩ := h
        exact List.mem_cons_self x t
      · obtain ⟨rfl, rfl⟩ := h
        exact List.mem_cons_of_mem x (ih hp)

theorem popMin_rest_sublist {V : Type} :
    ∀ {l : List (Entry V)} {e : Entry V} {rest : List (Entry V)},
      popMin l = some (e, rest) → rest.Sublist l := by
  intro l
  induction l with
  | nil => intro e r h; exact Option.noConfusion h
  | cons x t ih =>
    intro e r h
    rw [popMin] at h
    rcases hp : popMin t with _ | ⟨m, r'⟩ <;> rw [hp] at h
    · simp only [Option.some.injEq, Prod.mk.injEq] at h
      obtain ⟨rfl, rfl⟩ := h
      exact List.nil_sublist _
    · by_cases hk : keyLE x m <;> simp only [hk, if_true, if_false,
        Option.some.injEq, Prod.mk.injEq, Bool.false_eq_true] at h
      · obtain ⟨rfl, rfl⟩ := h
        exact List.sublist_cons_self x t
      · obtain ⟨rfl, rfl⟩ := h
        exact (ih hp).cons₂ x

theorem popMin_rest_mem {V : Type} {l : List (Entry V)} {e : Entry V}
    {rest : List (Entry V)} (h : popMin l = some (e, rest)) :
    ∀ e' ∈ rest, e' ∈ l :=
  fun _ he' => (popMin_rest_sublist h).subset he'

/-! ## The expansion loop: what one finalization adds to the state -/

theorem expandLoop_spec {V : Type} [DecidableEq V] (g : Graph V)
    (w : WeightFn V) (hfn : V → V → ℚ) (target curnode : V) (dist : ℚ)
    (epath : List V) (prev : Option (V × V)) :
    ∀ (nbs : List V) (queue : List (Entry V)) (enq : List (V × (ℚ × ℚ)))
      (cnt : ℕ) (q' : List (Entry V)) (enq' : List (V × (ℚ × ℚ))) (cnt' : ℕ),
      expandLoop g w hfn target curnode dist epath prev nbs queue enq cnt =
        (q', enq', cnt') →
      ∃ news : List (Entry V),
        q' = queue ++ news ∧
        cnt ≤ cnt' ∧
        (∀ v, (dlookup enq v).isSome = true →
          (dlookup enq' v).isSome = true) ∧
        (news.map Entry.counter).Pairwise (· < ·) ∧
        ∀ e' ∈ news, e'.node ∈ nbs ∧ e'.parent = some curnode ∧
          cnt ≤ e'.counter ∧ e'.counter < cnt' ∧
          (dlookup enq' e'.node).isSome = true := by
  intro nbs
  induction nbs with
  | nil =>
    intro queue enq cnt q' enq' cnt' h
    rw [expandLoop] at h
    obtain ⟨rfl, rfl, rfl⟩ := Prod.mk.injEq .. ▸ h
    refine ⟨[], by simp, le_refl _, fun v hv => hv, List.Pairwise.nil,
      fun e' he' => absurd he' (List.not_mem_nil e')⟩
  | cons nb nbs ih =>
    intro queue enq cnt q' enq' cnt' h
    rw [expandLoop] at h
    dsimp only at h
    rcases hl : dlookup enq nb with _ | qh <;> rw [hl] at h <;> dsimp only at h
    · -- first visit of `nb`: always pushed
      obtain ⟨news', hq, hcnt, hmono, hpw, hprops⟩ :=
        ih _ _ _ _ _ _ h
      refine ⟨⟨dist + w g prev (curnode, nb) + hfn nb target, cnt, nb,
        dist + w g prev (curnode, nb), some curnode, epath ++ [nb]⟩ :: news',
        ?_, ?_, ?_, ?_, ?_⟩
      · rw [hq, List.append_assoc]
        rfl
      · exact le_trans (Nat.le_succ cnt) hcnt
      · intro v hv
        exact hmono v (dlookup_dinsert_isSome nb _ hv)
      · rw [List.map_cons]
        refine List.pairwise_cons.mpr ⟨?_, hpw⟩
        intro b hb
        obtain ⟨e'', he'', hbe⟩ := List.mem_map.mp hb
        have := (hprops e'' he'').2.2.1
        dsimp only
        omega
      · intro e' he'
        rcases List.mem_cons.mp he' with rfl | he'
        · refine ⟨List.mem_cons_self _ _, rfl, le_refl _, by
            have := hcnt; show cnt < cnt'; omega, ?_⟩
          exact hmono nb (by rw [dlookup_dinsert_self]; rfl)
        · obtain ⟨h1, h2, h3, h4, h5⟩ := hprops e' he'
          exact ⟨List.mem_cons_of_mem _ h1, h2, by omega, h4, h5⟩
    · by_cases hle : qh.1 ≤ dist + w g prev (curnode, nb)
      · -- no improvement: skipped
        rw [if_pos hle] at h
        obtain ⟨news', hq, hcnt, hmono, hpw, hprops⟩ :=
          ih _ _ _ _ _ _ h
        refine ⟨news', hq, hcnt, hmono, hpw, fun e' he' => ?_⟩
        obtain ⟨h1, h2, h3, h4, h5⟩ := hprops e' he'
        exact ⟨List.mem_cons_of_mem _ h1, h2, h3, h4, h5⟩
      · -- strict improvement: re-pushed
        rw [if_neg hle] at h
        obtain ⟨news', hq, hcnt, hmono, hpw, hprops⟩ :=
          ih _ _ _ _ _ _ h
        refine ⟨⟨dist + w g prev (curnode, nb) + qh.2, cnt, nb,
          dist + w g prev (curnode, nb), some curnode, epath ++ [nb]⟩ :: news',
          ?_, ?_, ?_, ?_, ?_⟩
        · rw [hq, List.append_assoc]
          rfl
        · exact le_trans (Nat.le_succ cnt) hcnt
        · intro v hv
          exact hmono v (dlookup_dinsert_isSome nb _ hv)
        · rw [List.map_cons]
          refine List.pairwise_cons.mpr ⟨?_, hpw⟩
          intro b hb
          obtain ⟨e'', he'', hbe⟩ := List.mem_map.mp hb
          have := (hprops e'' he'').2.2.1
          dsimp only
          omega
        · intro e' he'
          rcases List.mem_cons.mp he' with rfl | he'
          · refine ⟨List.mem_cons_self _ _, rfl, le_refl _, by
              have := hcnt; show cnt < cnt'; omega, ?_⟩
            exact hmono nb (by rw [dlookup_dinsert_self]; rfl)
          · obtain ⟨h1, h2, h3, h4, h5⟩ := hprops e' he'
            exact ⟨List.mem_cons_of_mem _ h1, h2, by omega, h4, h5⟩

/-! ## Preservation of the invariant -/

theorem Inv_init {V : Type} [DecidableEq V] (g : Graph V) (source : V) :
    Inv g source (initState source) := by
  refine ⟨?_, ?_, ?_, ?_, ?_, ?_, ?_, ?_⟩
  · intro e he
    rcases List.mem_singleton.mp he with rfl
    exact ⟨fun _ => rfl, fun p hp => Option.noConfusion hp⟩
  · intro v op hv
    exact Option.noConfusion hv
  · intro e he hpar
    rcases List.mem_singleton.mp he with rfl
    exact absurd rfl hpar
  · intro v p hv
    exact Option.noConfusion hv
  · intro e he
    rcases List.mem_singleton.mp he with rfl
    exact Nat.zero_lt_one
  · exact List.pairwise_singleton _ _
  · intro e he
    rcases List.mem_singleton.mp he with rfl
    exact Relation.ReflTransGen.refl
  · intro v op hv
    exact Option.noConfusion hv

theorem dropEntry_inv {V : Type} [DecidableEq V] {g : Graph V} {source : V}
    {s : State V} {e : Entry V} {rest : List (Entry V)}
    (hinv : Inv g source s) (hp : popMin s.queue = some (e, rest)) :
    Inv g source { s with queue := rest } := by
  have hRest := popMin_rest_mem hp
  refine ⟨?_, hinv.xpar, ?_, hinv.xenq, ?_, ?_, ?_, hinv.xreach⟩
  · intro e' he'
    exact hinv.qpar e' (hRest e' he')
  · intro e' he' hpar
    exact hinv.qenq e' (hRest e' he') hpar
  · intro e' he'
    exact hinv.ctrlt e' (hRest e' he')
  · exact hinv.ctrnd.sublist ((popMin_rest_sublist hp).map Entry.counter)
  · intro e' he'
    exact hinv.qreach e' (hRest e' he')

theorem finalizeExpand_inv {V : Type} [DecidableEq V] {g : Graph V}
    {source : V} {w : WeightFn V} {hfn : V → V → ℚ} {target : V}
    {s : State V} {e : Entry V} {rest : List (Entry V)}
    (hinv : Inv g source s) (hp : popMin s.queue = some (e, rest)) :
    Inv g source (finalizeExpand g w hfn target s e rest) := by
  have hE := popMin_mem hp
  have hRest := popMin_rest_mem hp
  obtain ⟨news, hq, hcnt, hmono, hpw, hprops⟩ :=
    expandLoop_spec g w hfn target e.node e.dist e.epath
      (prevEdge e.epath e.node) (g.adj e.node) rest s.enqueued s.cnt
      (expandLoop g w hfn target e.node e.dist e.epath
        (prevEdge e.epath e.node) (g.adj e.node) rest s.enqueued s.cnt).1
      (expandLoop g w hfn target e.node e.dist e.epath
        (prevEdge e.epath e.node) (g.adj e.node) rest s.enqueued s.cnt).2.1
      (expandLoop g w hfn target e.node e.dist e.epath
        (prevEdge e.epath e.node) (g.adj e.node) rest s.enqueued s.cnt).2.2
      rfl
  refine ⟨?_, ?_, ?_, ?_, ?_, ?_, ?_, ?_⟩ <;> dsimp only [finalizeExpand]
  · -- qpar
    intro e' he'
    rw [hq] at he'
    rcases List.mem_append.mp he' with hr | hn
    · exact hinv.qpar e' (hRest e' hr)
    · obtain ⟨h1, h2, _, _, _⟩ := hprops e' hn
      refine ⟨fun hc => absurd (hc.symm.trans h2) (fun hcc =>
        Option.noConfusion hcc), fun p hpp => ?_⟩
      rw [h2] at hpp
      injection hpp with hpp'
      rw [← hpp']
      exact h1
  · -- xpar
    intro v op hv
    rw [dlookup_dinsert] at hv
    by_cases hveq : e.node = v
    · rw [if_pos hveq] at hv
      injection hv with hv'
      subst hv'
      subst hveq
      exact hinv.qpar e hE
    · rw [if_neg hveq] at hv
      exact hinv.xpar v op hv
  · -- qenq
    intro e' he' hpar
    rw [hq] at he'
    rcases List.mem_append.mp he' with hr | hn
    · exact hmono _ (hinv.qenq e' (hRest e' hr) hpar)
    · exact (hprops e' hn).2.2.2.2
  · -- xenq
    intro v p hv
    rw [dlookup_dinsert] at hv
    by_cases hveq : e.node = v
    · rw [if_pos hveq] at hv
      injection hv with hv'
      subst hveq
      refine hmono _ (hinv.qenq e hE ?_)
      rw [hv']
      intro hc
      exact Option.noConfusion hc
    · rw [if_neg hveq] at hv
      exact hmono _ (hinv.xenq v p hv)
  · -- ctrlt
    intro e' he'
    rw [hq] at he'
    rcases List.mem_append.mp he' with hr | hn
    · exact lt_of_lt_of_le (hinv.ctrlt e' (hRest e' hr)) hcnt
    · exact (hprops e' hn).2.2.2.1
  · -- ctrnd
    rw [hq, List.map_append]
    refine List.pairwise_append.mpr ⟨?_, ?_, ?_⟩
    · exact hinv.ctrnd.sublist ((popMin_rest_sublist hp).map Entry.counter)
    · exact hpw.imp (fun hlt => Nat.ne_of_lt hlt)
    · intro a ha b hb
      obtain ⟨ea, hea, rfl⟩ := List.mem_map.mp ha
      obtain ⟨eb, heb, rfl⟩ := List.mem_map.mp hb
      have h1 := hinv.ctrlt ea (hRest ea hea)
      have h2 := (hprops eb heb).2.2.1
      omega
  · -- qreach
    intro e' he'
    rw [hq] at he'
    rcases List.mem_append.mp he' with hr | hn
    · exact hinv.qreach e' (hRest e' hr)
    · exact Relation.ReflTransGen.tail (hinv.qreach e hE) (hprops e' hn).1
  · -- xreach
    intro v op hv
    rw [dlookup_dinsert] at hv
    by_cases hveq : e.node = v
    · subst hveq
      exact hinv.qreach e hE
    · rw [if_neg hveq] at hv
      exact hinv.xreach v op hv

theorem step_inv {V : Type} [DecidableEq V] {g : Graph V} {source : V}
    {w : WeightFn V} {hfn : V → V → ℚ} {target : V} {s s' : State V}
    (hinv : Inv g source s) (hstep : step g w hfn target s = .cont s') :
    Inv g source s' := by
  rw [step] at hstep
  rcases hp : popMin s.queue with _ | ⟨e, rest⟩ <;> rw [hp] at hstep <;>
    dsimp only at hstep
  · exact StepOut.noConfusion hstep
  · by_cases het : e.node = target
    · rw [if_pos het] at hstep
      rcases hr : reconstruct s.explored (s.explored.length + 1) e.parent
          [e.node] with _ | p <;> rw [hr] at hstep <;> dsimp only at hstep
      · exact StepOut.noConfusion hstep
      · exact StepOut.noConfusion hstep
    · rw [if_neg het] at hstep
      rcases hx : dlookup s.explored e.node with _ | op <;> rw [hx] at hstep <;>
        (try dsimp only at hstep)
      · injection hstep with h'
        rw [← h']
        exact finalizeExpand_inv hinv hp
      · rcases op with _ | pp <;> dsimp only at hstep
        · injection hstep with h'
          rw [← h']
          exact dropEntry_inv hinv hp
        · rcases he : dlookup s.enqueued e.node with _ | qh <;>
            rw [he] at hstep <;> dsimp only at hstep
          · exact StepOut.noConfusion hstep
          · by_cases hlt : qh.1 < e.dist
            · rw [if_pos hlt] at hstep
              injection hstep with h'
              rw [← h']
              exact dropEntry_inv hinv hp
            · rw [if_neg hlt] at hstep
              injection hstep with h'
              rw [← h']
              exact finalizeExpand_inv hinv hp

theorem runK_inv {V : Type} [DecidableEq V] {g : Graph V} {source : V}
    {w : WeightFn V} {hfn : V → V → ℚ} {target : V} {s0 : State V}
    (h0 : Inv g source s0) :
    ∀ (k : ℕ) (s' : State V),
      runK g w hfn target s0 k = .cont s' → Inv g source s' := by
  intro k
  induction k with
  | zero =>
    intro s' h
    rw [runK] at h
    injection h with h'
    rw [← h']
    exact h0
  | succ n ih =>
    intro s' h
    rw [runK] at h
    rcases hn : runK g w hfn target s0 n with p | _ | _ | sn <;>
      rw [hn] at h <;> dsimp only [advance] at h
    · exact StepOut.noConfusion h
    · exact StepOut.noConfusion h
    · exact StepOut.noConfusion h
    · exact step_inv (ih sn hn) h

/-! ## Soundness of found paths -/

theorem reconstruct_sound {V : Type} [DecidableEq V] {g : Graph V}
    {source : V} {expl : List (V × Option V)}
    (hx : ∀ v op, dlookup expl v = some op →
      (op = none → v = source) ∧ ∀ p, op = some p → v ∈ g.adj p) :
    ∀ (fuel : ℕ) (op : Option V) (acc l : List V),
      reconstruct expl fuel op acc = some l →
      acc ≠ [] →
      List.Chain' (hasEdge g) acc →
      (∀ q, op = some q → ∀ a, acc.head? = some a → hasEdge g q a) →
      l.getLast? = acc.getLast? ∧ List.Chain' (hasEdge g) l ∧
        ((l = acc ∧ op = none) ∨ l.head? = some source) := by
  intro fuel
  induction fuel with
  | zero =>
    intro op acc l hr hne hch hhd
    cases op with
    | none =>
      rw [reconstruct] at hr
      injection hr with hr'
      rw [← hr']
      exact ⟨rfl, hch, Or.inl ⟨rfl, rfl⟩⟩
    | some q =>
      rw [reconstruct] at hr
      exact Option.noConfusion hr
  | succ n ih =>
    intro op acc l hr hne hch hhd
    cases op with
    | none =>
      rw [reconstruct] at hr
      injection hr with hr'
      rw [← hr']
      exact ⟨rfl, hch, Or.inl ⟨rfl, rfl⟩⟩
    | some q =>
      rw [reconstruct] at hr
      rcases hl : dlookup expl q with _ | op' <;> rw [hl] at hr <;>
        dsimp only at hr
      · exact Option.noConfusion hr
      · obtain ⟨hxn, hxs⟩ := hx q op' hl
        have hedge : ∀ a, acc.head? = some a → hasEdge g q a := hhd q rfl
        rcases acc with _ | ⟨a, t⟩
        · exact absurd rfl hne
        obtain ⟨hlast, hchain, hhead⟩ := ih op' (q :: a :: t) l hr (by simp)
          (List.chain'_cons.mpr ⟨hedge a rfl, hch⟩)
          (fun q' hq' a' ha' => by
            simp only [List.head?_cons, Option.some.injEq] at ha'
            rw [← ha']
            exact hxs q' hq')
        refine ⟨?_, hchain, ?_⟩
        · rw [hlast, List.getLast?_cons_cons]
        · rcases hhead with ⟨hl2, hop⟩ | hl2
          · rw [hl2]
            simp [hxn hop]
          · exact Or.inr hl2

theorem step_found_sound {V : Type} [DecidableEq V] {g : Graph V}
    {source : V} {w : WeightFn V} {hfn : V → V → ℚ} {target : V}
    {s : State V} {p : List V}
    (hinv : Inv g source s) (hstep : step g w hfn target s = .found p) :
    p.head? = some source ∧ p.getLast? = some target ∧
      List.Chain' (hasEdge g) p := by
  rw [step] at hstep
  rcases hp : popMin s.queue with _ | ⟨e, rest⟩ <;> rw [hp] at hstep <;>
    dsimp only at hstep
  · exact StepOut.noConfusion hstep
  · have hE := popMin_mem hp
    by_cases het : e.node = target
    · rw [if_pos het] at hstep
      rcases hr : reconstruct s.explored (s.explored.length + 1) e.parent
          [e.node] with _ | p' <;> rw [hr] at hstep <;> dsimp only at hstep
      · exact StepOut.noConfusion hstep
      · injection hstep with h'
        rw [← h']
        obtain ⟨hlast, hchain, hhead⟩ := reconstruct_sound hinv.xpar _ _ _ _
          hr (by simp) (List.chain'_singleton e.node)
          (fun q hq a ha => by
            simp only [List.head?_cons, Option.some.injEq] at ha
            rw [← ha]
            exact (hinv.qpar e hE).2 q hq)
        refine ⟨?_, ?_, hchain⟩
        · rcases hhead with ⟨hl2, hop⟩ | hl2
          · rw [hl2]
            simp [(hinv.qpar e hE).1 hop]
          · exact hl2
        · rw [hlast]
          simp [het]
    · rw [if_neg het] at hstep
      rcases hx : dlookup s.explored e.node with _ | op <;> rw [hx] at hstep <;>
        (try dsimp only at hstep)
      · exact StepOut.noConfusion hstep
      · rcases op with _ | pp <;> dsimp only at hstep
        · exact StepOut.noConfusion hstep
        · rcases he : dlookup s.enqueued e.node with _ | qh <;>
            rw [he] at hstep <;> dsimp only at hstep
          · exact StepOut.noConfusion hstep
          · by_cases hlt : qh.1 < e.dist
            · rw [if_pos hlt] at hstep
              exact StepOut.noConfusion hstep
            · rw [if_neg hlt] at hstep
              exact StepOut.noConfusion hstep

theorem astarLoop_ok_sound {V : Type} [DecidableEq V] {g : Graph V}
    {source : V} {w : WeightFn V} {hfn : V → V → ℚ} {target : V} :
    ∀ {fuel : ℕ} {s : State V} {p : List V}, Inv g source s →
      astarLoop g w hfn target fuel s = .ok p →
      p.head? = some source ∧ p.getLast? = some target ∧
        List.Chain' (hasEdge g) p := by
  intro fuel
  induction fuel with
  | zero =>
    intro s p _ h
    rw [astarLoop] at h
    exact Except.noConfusion h
  | succ n ih =>
    intro s p hinv h
    rw [astarLoop] at h
    rcases hs : step g w hfn target s with p' | _ | _ | s' <;> rw [hs] at h <;>
      dsimp only at h
    · injection h with h'
      rw [← h']
      exact step_found_sound hinv hs
    · exact Except.noConfusion h
    · exact Except.noConfusion h
    · exact ih (step_inv hinv hs) h

/-- C1: whatever the heuristic (in particular the default zero heuristic or
any admissible non-negative one) and whatever the weight specification,
every node sequence `astar_path` returns starts at the source, ends at the
target, and each consecutive pair of nodes is joined by an edge of the
graph. -/
theorem claim_C1 {V : Type} [DecidableEq V] (g : Graph V) (s t : V)
    (h : Option (V → V → ℚ)) (w : WeightSpec V) (fuel : ℕ) (p : List V)
    (hok : astar_path g s t h w fuel = .ok p) :
    p.head? = some s ∧ p.getLast? = some t ∧ List.Chain' (hasEdge g) p := by
  by_cases hm : s ∈ g.nodes ∧ t ∈ g.nodes
  · rw [astar_path, if_pos hm] at hok
    rcases hw : weight_function g w with e | wres <;> rw [hw] at hok <;>
      dsimp only at hok
    · exact Except.noConfusion hok
    · exact astarLoop_ok_sound (Inv_init g s) hok
  · rw [astar_path, if_neg hm] at hok
    exact Except.noConfusion hok

/-- C1 witness: the path found on the concrete test graph is a genuine
source-to-target walk. -/
theorem claim_C1_witness :
    ([0, 3, 4, 5, 2] : List ℕ).head? = some 0 ∧
    ([0, 3, 4, 5, 2] : List ℕ).getLast? = some 2 ∧
    List.Chain' (hasEdge gEx) [0, 3, 4, 5, 2] :=
  claim_C1 gEx 0 2 none (.attr "weight") 30 [0, 3, 4, 5, 2] gEx_attr_run

theorem gEx_runK1 :
    runK gEx wAttr default_heuristic 2 (initState 0) 1 = .cont gExS1 := by
  rw [runK, runK]
  dsimp only [advance]
  norm_num [step, initState, popMin, keyLE, expandLoop, finalizeExpand,
    prevEdge, reconstruct, dlookup, dinsert, gEx, wAttr, default_heuristic,
    gExS1]

/-- C5: `astar_path` and `astar_path_length` are pure functions of their
arguments (two calls on identical inputs yield identical results), and the
tie-breaking mechanism holds throughout any call: at every reachable state
of the loop, the frontier counters are pairwise distinct and below the
insertion counter, so a frontier entry is completely identified by its
counter and the heap order never has to compare nodes. -/
theorem claim_C5 {V : Type} [DecidableEq V] (g : Graph V) (s t : V)
    (h : Option (V → V → ℚ)) (w : WeightSpec V) (fuel : ℕ)
    (wres : WeightFn V) (hfn : V → V → ℚ) (k : ℕ) :
    astar_path g s t h w fuel = astar_path g s t h w fuel ∧
    astar_path_length g s t h w fuel = astar_path_length g s t h w fuel ∧
    countersOK (runK g wres hfn t (initState s) k) ∧
    (∀ s', runK g wres hfn t (initState s) k = .cont s' →
      ∀ e1 ∈ s'.queue, ∀ e2 ∈ s'.queue, e1.counter = e2.counter → e1 = e2) := by
  refine ⟨rfl, rfl, ?_, ?_⟩
  · rcases hk : runK g wres hfn t (initState s) k with p | _ | _ | s'
    · trivial
    · trivial
    · trivial
    · have hinv := runK_inv (Inv_init g s) k s' hk
      exact ⟨hinv.ctrnd, hinv.ctrlt⟩
  · intro s' hk e1 he1 e2 he2 hc
    have hinv := runK_inv (Inv_init g s) k s' hk
    exact List.inj_on_of_nodup_map hinv.ctrnd he1 he2 hc

/-- C5 witness: at the concrete reachable state of the test-graph search,
the counter invariant holds and counters identify entries. -/
theorem claim_C5_witness :
    countersOK (runK gEx wAttr default_heuristic 2 (initState 0) 1) ∧
    (⟨-2, 1, 1, -2, some 0, [0, 1]⟩ : Entry ℕ) =
      ⟨-2, 1, 1, -2, some 0, [0, 1]⟩ :=
  ⟨(claim_C5 gEx 0 2 none (.attr "weight") 30 wAttr default_heuristic
      1).2.2.1,
    (claim_C5 gEx 0 2 none (.attr "weight") 30 wAttr default_heuristic
      1).2.2.2 gExS1 gEx_runK1
      ⟨-2, 1, 1, -2, some 0, [0, 1]⟩ (by norm_num [gExS1])
      ⟨-2, 1, 1, -2, some 0, [0, 1]⟩ (by norm_num [gExS1]) rfl⟩

/-! ## Claim C4: the explored table along the `gLoop` run -/

theorem gLoop_step0 :
    step gLoop wAttr default_heuristic 2 (initState 0) = .cont gLoopS1 := by
  norm_num [step, initState, popMin, keyLE, expandLoop, finalizeExpand,
    prevEdge, reconstruct, dlookup, dinsert, gLoop, wAttr, default_heuristic,
    gLoopS1]

theorem gLoop_step1 :
    step gLoop wAttr default_heuristic 2 gLoopS1 = .cont gLoopS2 := by
  norm_num [step, popMin, keyLE, expandLoop, finalizeExpand,
    prevEdge, reconstruct, dlookup, dinsert, gLoop, wAttr, default_heuristic,
    gLoopS1, gLoopS2]

theorem gLoop_step2 :
    step gLoop wAttr default_heuristic 2 gLoopS2 = .cont (loopState 0) := by
  norm_num [step, popMin, keyLE, expandLoop, finalizeExpand,
    prevEdge, reconstruct, dlookup, dinsert, gLoop, wAttr, default_heuristic,
    gLoopS2, loopState, List.replicate]

theorem gLoop_runK2 :
    runK gLoop wAttr default_heuristic 2 (initState 0) 2 = .cont gLoopS2 := by
  have h2 : (2 : ℕ) = 0 + 1 + 1 := rfl
  rw [h2, runK, runK, runK]
  dsimp only [advance]
  rw [gLoop_step0]
  dsimp only [advance]
  rw [gLoop_step1]

theorem gLoop_runK3 :
    runK gLoop wAttr default_heuristic 2 (initState 0) 3 =
      .cont (loopState 0) := by
  have h3 : (3 : ℕ) = 2 + 1 := rfl
  rw [h3, runK, gLoop_runK2]
  dsimp only [advance]
  rw [gLoop_step2]

/-- C4 counterexample: in the single call
`astar_path gLoop 0 2 None "weight"` (negative self-loop at node 1), the
explored table maps node 1 to parent 0 after two loop iterations and to
parent 1 after three — a finalized parent entry is overwritten with a
different parent. -/
theorem claim_C4_counterexample :
    weight_function gLoop (.attr "weight") = .ok wAttr ∧
    exploredOf (runK gLoop wAttr default_heuristic 2 (initState 0) 2) 1 =
      some (some 0) ∧
    exploredOf (runK gLoop wAttr default_heuristic 2 (initState 0) 3) 1 =
      some (some 1) := by
  refine ⟨rfl, ?_, ?_⟩
  · rw [gLoop_runK2]
    norm_num [exploredOf, gLoopS2, dlookup]
  · rw [gLoop_runK3]
    norm_num [exploredOf, loopState, dlookup]

/-- C4 (amended): throughout a call, explored entries are never removed —
once a node has an entry it keeps one — and the `none`-parent entry of the
source is never overwritten; but a non-source node's parent MAY be
overwritten by a later finalization (this happens exactly when a node is
re-popped with an accumulated cost equal to its enqueued best, which
negative-cost configurations make possible). -/
theorem claim_C4_amended {V : Type} [DecidableEq V] (g : Graph V)
    (w : WeightFn V) (hfn : V → V → ℚ) (target : V) (s s' : State V)
    (v : V) (op : Option V)
    (hstep : step g w hfn target s = .cont s')
    (hv : dlookup s.explored v = some op) :
    (∃ op', dlookup s'.explored v = some op') ∧
    (op = none → dlookup s'.explored v = some none) := by
  rw [step] at hstep
  rcases hp : popMin s.queue with _ | ⟨e, rest⟩ <;> rw [hp] at hstep <;>
    dsimp only at hstep
  · exact StepOut.noConfusion hstep
  · by_cases het : e.node = target
    · rw [if_pos het] at hstep
      rcases hr : reconstruct s.explored (s.explored.length + 1) e.parent
          [e.node] with _ | p <;> rw [hr] at hstep <;> dsimp only at hstep <;>
        exact StepOut.noConfusion hstep
    · rw [if_neg het] at hstep
      rcases hx : dlookup s.explored e.node with _ | op2 <;> rw [hx] at hstep <;>
        (try dsimp only at hstep)
      · injection hstep with h'
        subst h'
        dsimp only [finalizeExpand]
        rw [dlookup_dinsert]
        have hne : ¬ e.node = v := fun hc => by
          rw [hc, hv] at hx
          exact Option.noConfusion hx
        rw [if_neg hne]
        exact ⟨⟨op, hv⟩, fun hop => by rw [hop] at hv; exact hv⟩
      · rcases op2 with _ | pp <;> (try dsimp only at hstep)
        · injection hstep with h'
          subst h'
          dsimp only
          exact ⟨⟨op, hv⟩, fun hop => by rw [hop] at hv; exact hv⟩
        · rcases he : dlookup s.enqueued e.node with _ | qh <;>
            rw [he] at hstep <;> dsimp only at hstep
          · exact StepOut.noConfusion hstep
          · by_cases hlt : qh.1 < e.dist
            · rw [if_pos hlt] at hstep
              injection hstep with h'
              subst h'
              dsimp only
              exact ⟨⟨op, hv⟩, fun hop => by rw [hop] at hv; exact hv⟩
            · rw [if_neg hlt] at hstep
              injection hstep with h'
              subst h'
              dsimp only [finalizeExpand]
              rw [dlookup_dinsert]
              by_cases hveq : e.node = v
              · rw [if_pos hveq]
                refine ⟨⟨e.parent, rfl⟩, fun hop => ?_⟩
                rw [hveq, hv] at hx
                injection hx with hx'
                rw [hop] at hx'
                exact Option.noConfusion hx'
              · rw [if_neg hveq]
                exact ⟨⟨op, hv⟩, fun hop => by rw [hop] at hv; exact hv⟩

/-- C4 (amended) witness: one concrete loop iteration of the `gLoop` call
keeps the source's `none`-parent entry intact. -/
theorem claim_C4_amended_witness :
    (∃ op', dlookup gLoopS2.explored 0 = some op') ∧
    ((none : Option ℕ) = none → dlookup gLoopS2.explored 0 = some none) :=
  claim_C4_amended gLoop wAttr default_heuristic 2 gLoopS1 gLoopS2 0 none
    gLoop_step1 rfl

/-! ## Claim C6: exhaustion, unreachable targets, and divergence -/

theorem gLoop_loopStep (j : ℕ) :
    step gLoop wAttr default_heuristic 2 (loopState j) =
      .cont (loopState (j + 1)) := by
  norm_num [step, popMin, keyLE, expandLoop, finalizeExpand,
    prevEdge, reconstruct, dlookup, dinsert, gLoop, wAttr, default_heuristic,
    loopState]
  refine ⟨⟨by ring, by omega, by ring, ?_⟩, by omega, by ring⟩
  rw [← List.replicate_succ']
  congr 1

theorem gLoop_diverges_from :
    ∀ (fuel j : ℕ),
      astarLoop gLoop wAttr default_heuristic 2 fuel (loopState j) =
        .error .outOfFuel := by
  intro fuel
  induction fuel with
  | zero => intro j; rw [astarLoop]
  | succ n ih =>
    intro j
    rw [astarLoop, gLoop_loopStep j]
    dsimp only
    exact ih (j + 1)

theorem gLoop_run :
    ∀ fuel, astar_path gLoop 0 2 none (.attr "weight") fuel =
      .error .outOfFuel := by
  intro fuel
  have heq : astar_path gLoop 0 2 none (.attr "weight") fuel =
      astarLoop gLoop wAttr
        ((none : Option (ℕ → ℕ → ℚ)).getD default_heuristic) 2 fuel
        (initState 0) :=
    astar_path_eq_loop (by constructor <;> norm_num [gLoop]) rfl
  rw [heq]
  show astarLoop gLoop wAttr default_heuristic 2 fuel (initState 0) =
    .error .outOfFuel
  match fuel with
  | 0 => rw [astarLoop]
  | 1 =>
    rw [astarLoop, gLoop_step0]
    dsimp only
    rw [astarLoop]
  | 2 =>
    rw [astarLoop, gLoop_step0]
    dsimp only
    rw [astarLoop, gLoop_step1]
    dsimp only
    rw [astarLoop]
  | (n + 3) =>
    rw [astarLoop, gLoop_step0]
    dsimp only
    rw [astarLoop, gLoop_step1]
    dsimp only
    rw [astarLoop, gLoop_step2]
    dsimp only
    exact gLoop_diverges_from n 0

theorem gLoop_unreach : ¬ ReachG gLoop 0 2 := by
  intro hreach
  have hsub : ∀ v, ReachG gLoop 0 v → v = 0 ∨ v = 1 := by
    intro v hv
    induction hv with
    | refl => exact Or.inl rfl
    | tail hab hbc ih =>
      rcases ih with rfl | rfl
      · right
        simpa [gLoop, hasEdge] using hbc
      · right
        simpa [gLoop, hasEdge] using hbc
  rcases hsub 2 hreach with h | h <;> exact absurd h (by norm_num)

/-- C6 counterexample: on the graph `0→1` (weight 1) with the negative
self-loop `1→1` (weight −1) and the present-but-unreachable target `2`, the
call `astar_path(gLoop, 0, 2)` never fails with `NoPathFound`: the frontier
never empties, so the loop exhausts any amount of fuel instead. -/
theorem claim_C6_counterexample :
    (0 ∈ gLoop.nodes ∧ 2 ∈ gLoop.nodes) ∧
    ¬ ReachG gLoop 0 2 ∧
    noPathNeverRaised gLoop 0 2 none (.attr "weight") := by
  refine ⟨by constructor <;> norm_num [gLoop], gLoop_unreach, ?_⟩
  intro fuel
  rw [gLoop_run fuel]
  intro hc
  injection hc with hc'
  exact AErr.noConfusion hc'

theorem step_unreach {V : Type} [DecidableEq V] {g : Graph V} {source : V}
    {w : WeightFn V} {hfn : V → V → ℚ} {target : V} {s : State V}
    (hinv : Inv g source s) (hur : ¬ ReachG g source target) :
    (step g w hfn target s = .noPath ∧ s.queue = []) ∨
    (∃ s', step g w hfn target s = .cont s') := by
  rcases hp : popMin s.queue with _ | ⟨e, rest⟩
  · left
    constructor
    · rw [step, hp]
    · exact (popMin_eq_none_iff _).mp hp
  · right
    have hE := popMin_mem hp
    have het : ¬ e.node = target := fun hc => hur (hc ▸ hinv.qreach e hE)
    rcases hx : dlookup s.explored e.node with _ | op
    · exact ⟨_, by rw [step, hp]; dsimp only; rw [if_neg het, hx]⟩
    · rcases op with _ | pp
      · exact ⟨_, by rw [step, hp]; dsimp only; rw [if_neg het, hx]⟩
      · have hq : (dlookup s.enqueued e.node).isSome = true :=
          hinv.xenq e.node pp hx
        rcases he : dlookup s.enqueued e.node with _ | qh
        · rw [he] at hq
          exact absurd hq (by simp)
        · by_cases hlt : qh.1 < e.dist
          · exact ⟨_, by
              rw [step, hp]
              dsimp only
              rw [if_neg het, hx]
              dsimp only
              rw [he]
              dsimp only
              rw [if_pos hlt]⟩
          · exact ⟨_, by
              rw [step, hp]
              dsimp only
              rw [if_neg het, hx]
              dsimp only
              rw [he]
              dsimp only
              rw [if_neg hlt]⟩

theorem astarLoop_unreach {V : Type} [DecidableEq V] {g : Graph V}
    {source : V} {w : WeightFn V} {hfn : V → V → ℚ} {target : V} :
    ∀ (fuel : ℕ) (s : State V), Inv g source s → ¬ ReachG g source target →
      astarLoop g w hfn target fuel s = .error .noPathFound ∨
      astarLoop g w hfn target fuel s = .error .outOfFuel := by
  intro fuel
  induction fuel with
  | zero =>
    intro s _ _
    right
    rw [astarLoop]
  | succ n ih =>
    intro s hinv hur
    rcases step_unreach hinv hur with ⟨hs, _⟩ | ⟨s', hs⟩
    · left
      rw [astarLoop, hs]
    · rw [astarLoop, hs]
      dsimp only
      exact ih s' (step_inv hinv hs) hur

theorem runK_shift {V : Type} [DecidableEq V] {g : Graph V}
    {w : WeightFn V} {hfn : V → V → ℚ} {target : V} {s s' : State V}
    (hstep : step g w hfn target s = .cont s') :
    ∀ k, runK g w hfn target s (k + 1) = runK g w hfn target s' k := by
  intro k
  induction k with
  | zero =>
    rw [runK, runK, runK]
    dsimp only [advance]
    rw [hstep]
  | succ n ih =>
    rw [runK, ih]
    rw [runK]

theorem astarLoop_noPath_exhausted {V : Type} [DecidableEq V] {g : Graph V}
    {w : WeightFn V} {hfn : V → V → ℚ} {target : V} :
    ∀ (fuel : ℕ) (s : State V),
      astarLoop g w hfn target fuel s = .error .noPathFound →
      ∃ k s', runK g w hfn target s k = .cont s' ∧ s'.queue = [] := by
  intro fuel
  induction fuel with
  | zero =>
    intro s h
    rw [astarLoop] at h
    injection h with h'
    exact AErr.noConfusion h'
  | succ n ih =>
    intro s h
    rw [astarLoop] at h
    rcases hs : step g w hfn target s with p | _ | _ | s' <;> rw [hs] at h <;>
      dsimp only at h
    · exact Except.noConfusion h
    · refine ⟨0, s, by rw [runK], ?_⟩
      rw [step] at hs
      rcases hp : popMin s.queue with _ | ⟨e, rest⟩
      · exact (popMin_eq_none_iff _).mp hp
      · rw [hp] at hs
        dsimp only at hs
        by_cases het : e.node = target
        · rw [if_pos het] at hs
          rcases hr : reconstruct s.explored (s.explored.length + 1) e.parent
              [e.node] with _ | p' <;> rw [hr] at hs <;> dsimp only at hs <;>
            exact StepOut.noConfusion hs
        · rw [if_neg het] at hs
          rcases hx : dlookup s.explored e.node with _ | op <;>
            rw [hx] at hs <;> (try dsimp only at hs)
          · exact StepOut.noConfusion hs
          · rcases op with _ | pp <;> (try dsimp only at hs)
            · exact StepOut.noConfusion hs
            · rcases he : dlookup s.enqueued e.node with _ | qh <;>
                rw [he] at hs <;> dsimp only at hs
              · exact StepOut.noConfusion hs
              · by_cases hlt : qh.1 < e.dist
                · rw [if_pos hlt] at hs
                  exact StepOut.noConfusion hs
                · rw [if_neg hlt] at hs
                  exact StepOut.noConfusion hs
    · injection h with h'
      exact AErr.noConfusion h'
    · obtain ⟨k, s'', hk, hque⟩ := ih s' h
      exact ⟨k + 1, s'', by rw [runK_shift hs k]; exact hk, hque⟩

/-- C6 (amended): for a graph containing source and target where the target
is unreachable and the weight resolves, any *terminating* run of
`astar_path` fails with `NoPathFound` (the only other possibility in the
fuelled embedding is running out of fuel — and the search genuinely need
not terminate, as the `gLoop` counterexample shows); a `NoPathFound`
failure happens only once the frontier is exhausted, and no state of the
run ever pops the target. -/
theorem claim_C6_amended {V : Type} [DecidableEq V] (g : Graph V) (s t : V)
    (h : Option (V → V → ℚ)) (w : WeightSpec V) (fuel : ℕ)
    (wres : WeightFn V)
    (hs : s ∈ g.nodes) (ht : t ∈ g.nodes)
    (hw : weight_function g w = .ok wres)
    (hur : ¬ ReachG g s t) :
    (astar_path g s t h w fuel = .error .noPathFound ∨
      astar_path g s t h w fuel = .error .outOfFuel) ∧
    (astar_path g s t h w fuel = .error .noPathFound →
      ∃ k s', runK g wres (h.getD default_heuristic) t (initState s) k =
          .cont s' ∧ s'.queue = []) ∧
    (∀ k s' e rest,
      runK g wres (h.getD default_heuristic) t (initState s) k = .cont s' →
      popMin s'.queue = some (e, rest) → e.node ≠ t) := by
  have heq : astar_path g s t h w fuel =
      astarLoop g wres (h.getD default_heuristic) t fuel (initState s) :=
    astar_path_eq_loop ⟨hs, ht⟩ hw
  refine ⟨?_, ?_, ?_⟩
  · rw [heq]
    exact astarLoop_unreach fuel (initState s) (Inv_init g s) hur
  · intro hnp
    rw [heq] at hnp
    exact astarLoop_noPath_exhausted fuel (initState s) hnp
  · intro k s' e rest hk hp hc
    have hinv := runK_inv (Inv_init g s) k s' hk
    exact hur (hc ▸ hinv.qreach e (popMin_mem hp))

theorem gline_unreach : ¬ ReachG gline 0 2 := by
  intro hreach
  have hsub : ∀ v, ReachG gline 0 v → v = 0 ∨ v = 1 := by
    intro v hv
    induction hv with
    | refl => exact Or.inl rfl
    | tail hab hbc ih =>
      rcases ih with rfl | rfl
      · right
        simpa [gline, hasEdge] using hbc
      · exact absurd hbc (by simp [gline, hasEdge])
  rcases hsub 2 hreach with h | h <;> exact absurd h (by norm_num)

/-- C6 (amended) witness: on the terminating unreachable-target graph
`gline`, the call fails with `NoPathFound` or runs out of fuel. -/
theorem claim_C6_amended_witness :
    astar_path gline 0 2 none (.attr "weight") 9 = .error .noPathFound ∨
    astar_path gline 0 2 none (.attr "weight") 9 = .error .outOfFuel :=
  (claim_C6_amended gline 0 2 none (.attr "weight") 9 wAttr
    (by norm_num [gline]) (by norm_num [gline]) rfl gline_unreach).1

/-! ## Claim C9: equivalence with classic edge-only A* -/

theorem keyLEC_eraseE {V : Type} (a b : Entry V) :
    keyLEC (eraseE a) (eraseE b) = keyLE a b := rfl

theorem popMinC_map {V : Type} :
    ∀ l : List (Entry V),
      popMinC (l.map eraseE) =
        (popMin l).map (fun er => (eraseE er.1, er.2.map eraseE)) := by
  intro l
  induction l with
  | nil => rfl
  | cons e t ih =>
    rw [List.map_cons, popMinC, popMin, ih]
    rcases hp : popMin t with _ | ⟨m, r⟩ <;> dsimp only [Option.map]
    · rfl
    · rw [keyLEC_eraseE]
      by_cases hk : keyLE e m <;> simp [hk]

theorem cexpandLoop_map {V : Type} [DecidableEq V] (g : Graph V)
    (w : WeightFn V) (hfn : V → V → ℚ) (target curnode : V) (dist : ℚ)
    (epath : List V) (prev : Option (V × V))
    (hw : ∀ (G : Graph V) (p : Option (V × V)) (c : V × V),
      w G p c = w G none c) :
    ∀ (nbs : List V) (queue : List (Entry V)) (enq : List (V × (ℚ × ℚ)))
      (cnt : ℕ),
      cexpandLoop g (fun G c => w G none c) hfn target curnode dist nbs
          (queue.map eraseE) enq cnt =
        ((expandLoop g w hfn target curnode dist epath prev nbs queue enq
            cnt).1.map eraseE,
          (expandLoop g w hfn target curnode dist epath prev nbs queue enq
            cnt).2.1,
          (expandLoop g w hfn target curnode dist epath prev nbs queue enq
            cnt).2.2) := by
  intro nbs
  induction nbs with
  | nil =>
    intro queue enq cnt
    rw [cexpandLoop, expandLoop]
  | cons nb nbs ih =>
    intro queue enq cnt
    rw [cexpandLoop, expandLoop]
    dsimp only
    rw [hw g prev (curnode, nb)]
    rcases hl : dlookup enq nb with _ | qh <;> dsimp only
    · have := ih (queue ++
        [⟨dist + w g none (curnode, nb) + hfn nb target, cnt, nb,
          dist + w g none (curnode, nb), some curnode, epath ++ [nb]⟩])
        (dinsert enq nb (dist + w g none (curnode, nb), hfn nb target))
        (cnt + 1)
      rw [List.map_append] at this
      exact this
    · by_cases hle : qh.1 ≤ dist + w g none (curnode, nb)
      · rw [if_pos hle, if_pos hle]
        exact ih queue enq cnt
      · rw [if_neg hle, if_neg hle]
        have := ih (queue ++
          [⟨dist + w g none (curnode, nb) + qh.2, cnt, nb,
            dist + w g none (curnode, nb), some curnode, epath ++ [nb]⟩])
          (dinsert enq nb (dist + w g none (curnode, nb), qh.2)) (cnt + 1)
        rw [List.map_append] at this
        exact this

theorem cfinalizeExpand_map {V : Type} [DecidableEq V] (g : Graph V)
    (w : WeightFn V) (hfn : V → V → ℚ) (target : V) (s : State V)
    (e : Entry V) (rest : List (Entry V))
    (hw : ∀ (G : Graph V) (p : Option (V × V)) (c : V × V),
      w G p c = w G none c) :
    cfinalizeExpand g (fun G c => w G none c) hfn target (eraseS s)
        (eraseE e) (rest.map eraseE) =
      eraseS (finalizeExpand g w hfn target s e rest) := by
  dsimp only [cfinalizeExpand, finalizeExpand, eraseS, eraseE]
  rw [cexpandLoop_map g w hfn target e.node e.dist e.epath
    (prevEdge e.epath e.node) hw (g.adj e.node) rest s.enqueued s.cnt]

theorem cstep_map {V : Type} [DecidableEq V] (g : Graph V) (w : WeightFn V)
    (hfn : V → V → ℚ) (target : V) (s : State V)
    (hw : ∀ (G : Graph V) (p : Option (V × V)) (c : V × V),
      w G p c = w G none c) :
    cstep g (fun G c => w G none c) hfn target (eraseS s) =
      eraseOut (step g w hfn target s) := by
  rw [cstep, step]
  have hq : (eraseS s).queue = s.queue.map eraseE := rfl
  rw [hq, popMinC_map]
  rcases hp : popMin s.queue with _ | ⟨e, rest⟩ <;> dsimp only [Option.map]
  · rfl
  · dsimp only [eraseE]
    by_cases het : e.node = target
    · rw [if_pos het, if_pos het]
      have hx : (eraseS s).explored = s.explored := rfl
      rw [hx]
      rcases hr : reconstruct s.explored (s.explored.length + 1) e.parent
          [e.node] with _ | p <;> rfl
    · rw [if_neg het, if_neg het]
      have hx : (eraseS s).explored = s.explored := rfl
      rw [hx]
      rcases hex : dlookup s.explored e.node with _ | op <;> (try dsimp only)
      · dsimp only [eraseOut]
        exact congrArg CStepOut.cont
          (cfinalizeExpand_map g w hfn target s e rest hw)
      · rcases op with _ | pp <;> dsimp only
        · rfl
        · have he2 : (eraseS s).enqueued = s.enqueued := rfl
          rw [he2]
          rcases he : dlookup s.enqueued e.node with _ | qh <;> dsimp only
          · rfl
          · by_cases hlt : qh.1 < e.dist
            · rw [if_pos hlt, if_pos hlt]
              rfl
            · rw [if_neg hlt, if_neg hlt]
              dsimp only [eraseOut]
              exact congrArg CStepOut.cont
                (cfinalizeExpand_map g w hfn target s e rest hw)

theorem classicLoop_eq {V : Type} [DecidableEq V] (g : Graph V)
    (w : WeightFn V) (hfn : V → V → ℚ) (target : V)
    (hw : ∀ (G : Graph V) (p : Option (V × V)) (c : V × V),
      w G p c = w G none c) :
    ∀ (fuel : ℕ) (s : State V),
      classicLoop g (fun G c => w G none c) hfn target fuel (eraseS s) =
        astarLoop g w hfn target fuel s := by
  intro fuel
  induction fuel with
  | zero =>
    intro s
    rw [classicLoop, astarLoop]
  | succ n ih =>
    intro s
    rw [classicLoop, astarLoop, cstep_map g w hfn target s hw]
    rcases hs : step g w hfn target s with p | _ | _ | s' <;>
      dsimp only [eraseOut] <;>
      first
        | rfl
        | exact ih s'

/-- C9: when the supplied cost function ignores its previous-edge argument,
`astar_path` computes exactly what classic edge-only A* (the algorithm this
module was forked from, with the same graph, source, target, heuristic and
per-edge costs) computes. -/
theorem claim_C9 {V : Type} [DecidableEq V] (g : Graph V) (s t : V)
    (h : Option (V → V → ℚ)) (w : WeightFn V) (fuel : ℕ)
    (hw : ∀ (G : Graph V) (p : Option (V × V)) (c : V × V),
      w G p c = w G none c) :
    astar_path g s t h (.fn w) fuel =
      classic_astar_path g s t h (fun G cur => w G none cur) fuel := by
  rw [astar_path, classic_astar_path]
  by_cases hm : s ∈ g.nodes ∧ t ∈ g.nodes
  · rw [if_pos hm, if_pos hm]
    dsimp only
    have hinit : (⟨[⟨0, 0, s, 0, none⟩], 1, [], []⟩ : CState V) =
        eraseS (initState s) := rfl
    rw [hinit, classicLoop_eq g w (h.getD default_heuristic) t hw fuel
      (initState s)]
    rfl
  · rw [if_neg hm, if_neg hm]

/-- C9 witness: the attribute-style cost function ignores the previous
edge, and the history-sensitive search agrees with classic A* on the test
graph. -/
theorem claim_C9_witness :
    astar_path gEx 0 2 none (.fn wAttr) 30 =
      classic_astar_path gEx 0 2 none (fun G cur => wAttr G none cur) 30 :=
  claim_C9 gEx 0 2 none wAttr 30 (fun _ _ _ => rfl)

end AStarPath
